import Mathlib

/-!
# QuestagBot: quiz session engine

A shallow embedding of the quiz core of `questagbot.go`:
`perm`, `generateQuestionsQueue`, `GameState.NextQuestion`, `GameState.sendPhoto`
and `keyboardJSON`.

Conventions of the embedding.

* Go `int` values are modelled as `Int`.  The only arithmetic in the modelled code is
  `i++` below a bound and `size-1` after `make([]int, size)` has accepted `size`, so no
  operation can leave the 64-bit range and no wrap-around is modelled.
* Slices are lists.  An index expression outside the slice, a negative length given to
  `make`, and `rand.Intn` on a non-positive bound are Go run-time panics; they are the
  `Outcome.goPanic` result.
* The random source is an explicit record of draws: `draws : List Nat` lists the values
  that successive calls of `rand.Intn` return.  A loop that still asks for a draw when
  the record is used up yields `Outcome.starved`: on that record the Go code has not
  returned.  The value of `random.Perm(len(tags))` is the parameter `answers`.
-/

namespace Questagbot

/-- Result of running a piece of Go code against a finite record of random draws. -/
inductive Outcome (α : Type) where
  /-- The code returned `a`; `rest` are the draws it did not consume. -/
  | done (a : α) (rest : List Nat)
  /-- The code hit a run-time panic. -/
  | goPanic
  /-- The code consumed every draw and its loop is still running. -/
  | starved
deriving DecidableEq, Repr

/-- Go struct `Question`. -/
structure Question where
  Answer : String
  Variants : List String
deriving DecidableEq, Repr

/-- Go struct `GameState`. -/
structure GameState where
  InstagramClientID : String
  APIURL : String
  Tags : List String
  Questions : List Question
  CurrentQuestion : Int
deriving DecidableEq, Repr

/-- Go struct `ReplyKeyboardMarkup`. -/
structure ReplyKeyboardMarkup where
  Keyboard : List (List String)
  ResizeKeyboard : Bool
  OneTimeKeyboard : Bool
  Selective : Bool
deriving DecidableEq, Repr

/-- Go slice indexing `s[i]` with an `int` index: `none` is the index-out-of-range panic. -/
def index {α : Type} (s : List α) (i : Int) : Option α :=
  if 0 ≤ i then s[i.toNat]? else none

/-- The `for i < size-1` loop of `perm`.  Each iteration takes one draw `r` (the value of
`rand.Intn(limit)`, which panics when `limit ≤ 0`), and stores it at `array[i]` only when
`r != exclude`. -/
def permLoop (size limit exclude : Int) : List Nat → List Int → Int → Outcome (List Int)
  | [], array, i =>
    if i < size - 1 then
      if limit ≤ 0 then .goPanic else .starved
    else .done array []
  | r :: draws, array, i =>
    if i < size - 1 then
      if limit ≤ 0 then .goPanic
      else if (r : Int) ≠ exclude then
        permLoop size limit exclude draws (array.set i.toNat (r : Int)) (i + 1)
      else
        permLoop size limit exclude draws array i
    else .done array (r :: draws)

/-- Go `perm(size, limit, exclude)`: `make([]int, size)`, the rejection loop, then
`array[size-1] = exclude`. -/
def perm (size limit exclude : Int) (draws : List Nat) : Outcome (List Int) :=
  if size < 0 then .goPanic
  else
    match permLoop size limit exclude draws (List.replicate size.toNat 0) 0 with
    | .done array rest =>
      if size - 1 < 0 then .goPanic
      else .done (array.set (size - 1).toNat exclude) rest
    | .goPanic => .goPanic
    | .starved => .starved

/-- The inner loop `for i, variant := range variants { variantsStr[i] = tags[variant] }` of
`generateQuestionsQueue`; `none` when some `tags[variant]` is out of range. -/
def lookupTags (tags : List String) : List Int → Option (List String)
  | [] => some []
  | variant :: variants =>
    match index tags variant, lookupTags tags variants with
    | some s, some strs => some (s :: strs)
    | _, _ => none

/-- The outer loop `for answer := range answers` of `generateQuestionsQueue`.  The first
list holds the values the loop variable `answer` still has to take, `questions` is the
slice built so far. -/
def genLoop (tags : List String) : List Nat → List Question → List Nat → Outcome (List Question)
  | [], questions, draws => .done questions draws
  | answer :: todo, questions, draws =>
    match perm 4 (tags.length : Int) (answer : Int) draws with
    | .done variants rest =>
      match lookupTags tags variants, index tags (answer : Int) with
      | some variantsStr, some a =>
        genLoop tags todo (questions ++ [{ Answer := a, Variants := variantsStr }]) rest
      | _, _ => .goPanic
    | .goPanic => .goPanic
    | .starved => .starved

/-- Go `generateQuestionsQueue(tags)`.  `answers` is the slice returned by
`random.Perm(len(tags))`.  The loop is written `for answer := range answers`, and a Go
`range` clause with a single variable binds the INDEX, so `answer` runs over
`0, 1, ..., len(answers)-1`. -/
def generateQuestionsQueue (tags : List String) (answers : List Nat) (draws : List Nat) :
    Outcome (List Question) :=
  genLoop tags (List.range answers.length) [] draws

/-- Body of `GameState.NextQuestion`, run on the receiver copy `state`.  Returns the result
`question` together with the final value of the local copy; `none` when
`state.Questions[state.CurrentQuestion]` is out of range. -/
def NextQuestion.body (state : GameState) : Option (Question × GameState) :=
  match index state.Questions state.CurrentQuestion with
  | none => none
  | some question =>
    let state1 := { state with CurrentQuestion := state.CurrentQuestion + 1 }
    let state2 :=
      if state1.CurrentQuestion = (state1.Tags.length : Int) then
        { state1 with CurrentQuestion := 0 }
      else state1
    some (question, state2)

/-- Go `func (state GameState) NextQuestion(c) (question Question)`.  The receiver is a
value, so the method works on a copy of the caller's struct; only `question` is returned
and the updated copy is dropped. -/
def NextQuestion (state : GameState) : Option Question :=
  (NextQuestion.body state).map Prod.fst

/-- Go `keyboardJSON(v)`: the `ReplyKeyboardMarkup` value handed to `json.Marshal`;
`none` when one of `v[0]`, ..., `v[3]` is out of range. -/
def keyboardJSON (v : List String) : Option ReplyKeyboardMarkup :=
  match index v 0, index v 1, index v 2, index v 3 with
  | some v0, some v1, some v2, some v3 =>
    some { Keyboard := [[v0, v1], [v2, v3]]
           ResizeKeyboard := true
           OneTimeKeyboard := true
           Selective := false }
  | _, _, _, _ => none

/-- Quiz-relevant part of `func (state GameState) sendPhoto(...)`: the question obtained by
`question := state.NextQuestion(c)` and the keyboard built from `question.Variants`.  The
receiver is again a value. -/
def sendPhoto (state : GameState) : Option (Question × ReplyKeyboardMarkup) :=
  match NextQuestion state with
  | none => none
  | some question =>
    match keyboardJSON question.Variants with
    | none => none
    | some km => some (question, km)

/-- The `/bothook` handler run on `n` successive inbound events.  The handler holds
`state : *GameState` and calls `state.sendPhoto(...)`; because `sendPhoto` has a value
receiver, `*state` is copied for the call and is itself never written, so every event
starts from the same `state`.  Returns the questions sent, oldest first. -/
def bothook (state : GameState) : Nat → List (Option Question)
  | 0 => []
  | n + 1 => (sendPhoto state).map Prod.fst :: bothook state n

/-- The questions returned by `n` successive calls `state.NextQuestion(c)` on one
`GameState` value. -/
def nextQuestions (state : GameState) : Nat → List (Option Question)
  | 0 => []
  | n + 1 => NextQuestion state :: nextQuestions state n

/-- Proof-side description of one iteration of the outer loop of `generateQuestionsQueue`
for the loop value `answer`: the question `q` has `tags[answer]` as its `Answer`, and its
`Variants` are the tags at three picks, each in range and different from `answer`, followed
by `tags[answer]`. -/
def Built (tags : List String) (answer : Nat) (q : Question) : Prop :=
  ∃ (p0 p1 p2 : Nat) (a s0 s1 s2 : String),
    tags[answer]? = some a ∧ tags[p0]? = some s0 ∧ tags[p1]? = some s1 ∧
    tags[p2]? = some s2 ∧ p0 ≠ answer ∧ p1 ≠ answer ∧ p2 ≠ answer ∧
    q = { Answer := a, Variants := [s0, s1, s2, a] }

/-! ## Concrete inputs used in the evaluations below -/

/-- The four-tag vocabulary of the end-to-end scenario. -/
def exampleTags : List String := ["cat", "dog", "bird", "fish"]

/-- A record of twelve draws, each in `[0, 4)`: three draws of 1 for the first question,
three draws of 0 for each of the other three. -/
def exampleDraws : List Nat := [1, 1, 1, 0, 0, 0, 0, 0, 0, 0, 0, 0]

/-- The queue that `generateQuestionsQueue exampleTags` returns on `exampleDraws`. -/
def exampleQueue : List Question :=
  [{ Answer := "cat", Variants := ["dog", "dog", "dog", "cat"] },
   { Answer := "dog", Variants := ["cat", "cat", "cat", "dog"] },
   { Answer := "bird", Variants := ["cat", "cat", "cat", "bird"] },
   { Answer := "fish", Variants := ["cat", "cat", "cat", "fish"] }]

/-- A game state as `init` builds it: the queue, and `CurrentQuestion: 0`. -/
def exampleState : GameState :=
  { InstagramClientID := ""
    APIURL := ""
    Tags := exampleTags
    Questions := exampleQueue
    CurrentQuestion := 0 }

/-- A three-tag vocabulary, below the choice-set size 4. -/
def smallTags : List String := ["cat", "dog", "bird"]

/-- Nine draws, each in `[0, 3)`. -/
def smallDraws : List Nat := [1, 1, 1, 0, 0, 0, 0, 0, 0]

/-- The queue that `generateQuestionsQueue smallTags` returns on `smallDraws`. -/
def smallQueue : List Question :=
  [{ Answer := "cat", Variants := ["dog", "dog", "dog", "cat"] },
   { Answer := "dog", Variants := ["cat", "cat", "cat", "dog"] },
   { Answer := "bird", Variants := ["cat", "cat", "cat", "bird"] }]

/-! ## Auxiliary facts about the sampler loop -/

/-- What a completed run of the sampler loop leaves in the array: the cells before the
cursor are untouched, the cells from the cursor up to `size-2` hold accepted draws, and the
remaining cells are untouched. -/
theorem permLoop_done (size limit exclude : Int) (draws : List Nat) :
    ∀ (pre suf : List Int) (arr : List Int) (rest : List Nat),
      ((pre.length : Int) + (suf.length : Int) = size) → 1 ≤ suf.length →
      permLoop size limit exclude draws (pre ++ suf) (pre.length : Int) = .done arr rest →
      ∃ (picks : List Nat) (last : Int),
        arr = pre ++ picks.map (fun p : Nat => (p : Int)) ++ [last] ∧
        suf.getLast? = some last ∧
        picks.length + 1 = suf.length ∧
        (∀ p ∈ picks, p ∈ draws ∧ (p : Int) ≠ exclude) ∧
        (∀ d ∈ rest, d ∈ draws) := by
  induction draws with
  | nil =>
    intro pre suf arr rest hlen hsuf h
    unfold permLoop at h
    split_ifs at h with h1 h2
    simp only [Outcome.done.injEq] at h
    obtain ⟨rfl, rfl⟩ := h
    have h1 : suf.length = 1 := by omega
    obtain ⟨x, rfl⟩ := List.length_eq_one.mp h1
    exact ⟨[], x, by simp, by simp, by simp, by simp, by simp⟩
  | cons r draws ih =>
    intro pre suf arr rest hlen hsuf h
    unfold permLoop at h
    split_ifs at h with h1 h2 h3
    · -- the draw is accepted
      match suf, hsuf, hlen, h1 with
      | x :: y :: suf2, _, hlen, _ =>
        have hset : (pre ++ x :: y :: suf2).set (pre.length : Int).toNat (r : Int)
            = (pre ++ [(r : Int)]) ++ (y :: suf2) := by
          simp
        have hi : (pre.length : Int) + 1 = ((pre ++ [(r : Int)]).length : Int) := by
          simp
        rw [hset, hi] at h
        obtain ⟨picks, last, harr, hlast, hpl, hp, hr⟩ :=
          ih (pre ++ [(r : Int)]) (y :: suf2) arr rest
            (by simp only [List.length_append, List.length_cons, List.length_nil] at hlen ⊢
                push_cast at hlen ⊢; omega)
            (by simp) h
        refine ⟨r :: picks, last, by simpa using harr, ?_, by simpa using hpl, ?_, ?_⟩
        · simpa [List.getLast?_cons_cons] using hlast
        · intro p hpm
          rcases List.mem_cons.mp hpm with rfl | hpm
          · exact ⟨by simp, h3⟩
          · exact ⟨List.mem_cons_of_mem _ (hp p hpm).1, (hp p hpm).2⟩
        · intro d hd
          exact List.mem_cons_of_mem _ (hr d hd)
      | [x], _, hlen, h1 =>
        simp at hlen
        omega
    · -- the draw equals exclude and is rejected
      obtain ⟨picks, last, harr, hlast, hpl, hp, hr⟩ := ih pre suf arr rest hlen hsuf h
      exact ⟨picks, last, harr, hlast, hpl,
        fun p hpm => ⟨List.mem_cons_of_mem _ (hp p hpm).1, (hp p hpm).2⟩,
        fun d hd => List.mem_cons_of_mem _ (hr d hd)⟩
    · simp only [Outcome.done.injEq] at h
      obtain ⟨rfl, rfl⟩ := h
      have h1 : suf.length = 1 := by omega
      obtain ⟨x, rfl⟩ := List.length_eq_one.mp h1
      exact ⟨[], x, by simp, by simp, by simp, by simp, by simp⟩

/-- Shape of every array returned by `perm` for `size ≥ 1`: accepted draws, each different
from `exclude`, followed by `exclude`. -/
theorem perm_done (size limit exclude : Int) (draws : List Nat) (arr : List Int)
    (rest : List Nat) (hsize : 1 ≤ size)
    (h : perm size limit exclude draws = .done arr rest) :
    ∃ picks : List Nat,
      arr = picks.map (fun p : Nat => (p : Int)) ++ [exclude] ∧
      (picks.length : Int) + 1 = size ∧
      (∀ p ∈ picks, p ∈ draws ∧ (p : Int) ≠ exclude) ∧
      (∀ d ∈ rest, d ∈ draws) := by
  unfold perm at h
  rw [if_neg (by omega)] at h
  cases hl : permLoop size limit exclude draws (List.replicate size.toNat 0) 0 with
  | goPanic => rw [hl] at h; simp at h
  | starved => rw [hl] at h; simp at h
  | done array rest1 =>
    rw [hl] at h
    simp only [] at h
    rw [if_neg (by omega)] at h
    simp only [Outcome.done.injEq] at h
    obtain ⟨rfl, rfl⟩ := h
    have hl2 : permLoop size limit exclude draws
        (([] : List Int) ++ List.replicate size.toNat 0) (([] : List Int).length : Int)
        = .done array rest1 := by simpa using hl
    obtain ⟨picks, last, harr, -, hpl, hp, hr⟩ :=
      permLoop_done size limit exclude draws [] (List.replicate size.toNat 0) array rest1
        (by simp; omega) (by simp; omega) hl2
    simp only [List.length_replicate] at hpl
    refine ⟨picks, ?_, by omega, hp, hr⟩
    subst harr
    have hidx : (size - 1).toNat = (picks.map (fun p : Nat => (p : Int))).length := by
      rw [List.length_map]; omega
    rw [hidx]
    simp

/-! ## Auxiliary facts about queue generation -/

theorem index_natCast {α : Type} (s : List α) (n : Nat) : index s (n : Int) = s[n]? := by
  simp [index]

/-- One completed pass of the outer loop appends one `Built` question per loop value. -/
theorem genLoop_done (tags : List String) (todo : List Nat) :
    ∀ (questions : List Question) (draws : List Nat) (qs : List Question) (rest : List Nat),
      genLoop tags todo questions draws = .done qs rest →
      ∃ news, qs = questions ++ news ∧ List.Forall₂ (Built tags) todo news ∧
        (∀ d ∈ rest, d ∈ draws) := by
  induction todo with
  | nil =>
    intro questions draws qs rest h
    simp only [genLoop, Outcome.done.injEq] at h
    obtain ⟨rfl, rfl⟩ := h
    exact ⟨[], by simp, List.Forall₂.nil, fun d hd => hd⟩
  | cons answer todo ih =>
    intro questions draws qs rest h
    unfold genLoop at h
    cases hperm : perm 4 (tags.length : Int) (answer : Int) draws with
    | goPanic => rw [hperm] at h; simp at h
    | starved => rw [hperm] at h; simp at h
    | done variants rest1 =>
      rw [hperm] at h
      simp only [] at h
      obtain ⟨picks, hv, hpl, hp, hr⟩ :=
        perm_done 4 (tags.length : Int) (answer : Int) draws variants rest1 (by norm_num) hperm
      have hpl3 : picks.length = 3 := by omega
      match picks, hpl3 with
      | [p0, p1, p2], _ =>
        subst hv
        cases hlk : lookupTags tags
            (List.map (fun p : Nat => (p : Int)) [p0, p1, p2] ++ [(answer : Int)]) with
        | none => rw [hlk] at h; simp at h
        | some variantsStr =>
          cases hidx : index tags (answer : Int) with
          | none => rw [hlk, hidx] at h; simp at h
          | some a =>
            rw [hlk, hidx] at h
            simp only [] at h
            obtain ⟨news, hqs, hall, hrest⟩ := ih _ _ _ _ h
            refine ⟨{ Answer := a, Variants := variantsStr } :: news, by simpa using hqs,
              List.Forall₂.cons ?_ hall, fun d hd => hr d (hrest d hd)⟩
            rw [index_natCast] at hidx
            simp only [List.map_cons, List.map_nil, List.cons_append, List.nil_append,
              lookupTags, index_natCast] at hlk
            cases h0 : tags[p0]? with
            | none => simp [h0] at hlk
            | some s0 =>
              cases h1 : tags[p1]? with
              | none => simp [h0, h1] at hlk
              | some s1 =>
                cases h2 : tags[p2]? with
                | none => simp [h0, h1, h2] at hlk
                | some s2 =>
                  simp only [h0, h1, h2, hidx, Option.some.injEq] at hlk
                  have e0 := (hp p0 (by simp)).2
                  have e1 := (hp p1 (by simp)).2
                  have e2 := (hp p2 (by simp)).2
                  exact ⟨p0, p1, p2, a, s0, s1, s2, hidx, h0, h1, h2,
                    by exact_mod_cast e0, by exact_mod_cast e1, by exact_mod_cast e2,
                    by rw [← hlk]⟩

/-- Every returned queue consists of one `Built` question per index of `answers`. -/
theorem generate_done (tags : List String) (answers draws : List Nat) (qs : List Question)
    (rest : List Nat) (h : generateQuestionsQueue tags answers draws = .done qs rest) :
    List.Forall₂ (Built tags) (List.range answers.length) qs ∧ (∀ d ∈ rest, d ∈ draws) := by
  obtain ⟨news, hqs, hall, hrest⟩ := genLoop_done tags _ _ _ _ _ h
  simp only [List.nil_append] at hqs
  subst hqs
  exact ⟨hall, hrest⟩

/-- Every question of a returned queue is `Built` for some loop value. -/
theorem generate_mem (tags : List String) (answers draws : List Nat) (qs : List Question)
    (rest : List Nat) (h : generateQuestionsQueue tags answers draws = .done qs rest)
    (q : Question) (hq : q ∈ qs) : ∃ answer, Built tags answer q := by
  have hall := (generate_done tags answers draws qs rest h).1
  have : ∀ (l : List Nat) (qs : List Question), List.Forall₂ (Built tags) l qs →
      ∀ q ∈ qs, ∃ answer, Built tags answer q := by
    intro l qs hf
    induction hf with
    | nil => intro q hq; simp at hq
    | cons hab _ ih =>
      intro q hq
      rcases List.mem_cons.mp hq with rfl | hq
      · exact ⟨_, hab⟩
      · exact ih q hq
  exact this _ _ hall q hq

/-- The `Answer` fields of a returned queue are the tags at the loop values, in order. -/
theorem forall2_built_answers (tags : List String) (l : List Nat) (qs : List Question)
    (hf : List.Forall₂ (Built tags) l qs) :
    qs.map (fun q => some q.Answer) = l.map (fun k => tags[k]?) := by
  induction hf with
  | nil => rfl
  | cons hab _ ih =>
    obtain ⟨p0, p1, p2, a, s0, s1, s2, ha, -, -, -, -, -, -, rfl⟩ := hab
    simp [ih, ha]

theorem range_map_getElem? (tags : List String) :
    (List.range tags.length).map (fun k => tags[k]?) = tags.map some := by
  apply List.ext_getElem?
  intro k
  by_cases hk : k < tags.length
  · simp [List.getElem?_range hk, List.getElem?_eq_getElem hk]
  · have hk2 : tags.length ≤ k := by omega
    simp [List.getElem?_eq_none, hk2]

/-- When `answers` has the length of `tags`, the `Answer` fields of a returned queue are
exactly `tags`, in vocabulary order. -/
theorem generate_answers (tags : List String) (answers draws : List Nat)
    (qs : List Question) (rest : List Nat) (hlen : answers.length = tags.length)
    (h : generateQuestionsQueue tags answers draws = .done qs rest) :
    qs.map Question.Answer = tags := by
  have hall := (generate_done tags answers draws qs rest h).1
  have h1 := forall2_built_answers tags _ _ hall
  rw [hlen, range_map_getElem?] at h1
  have h2 : (qs.map Question.Answer).map some = tags.map some := by
    rw [← h1, List.map_map]; rfl
  exact List.map_injective_iff.mpr (Option.some_injective _) h2

/-! ## Auxiliary facts about panics and starvation -/

theorem permLoop_ne_goPanic (size limit exclude : Int) (hlimit : 0 < limit)
    (draws : List Nat) :
    ∀ (array : List Int) (i : Int), permLoop size limit exclude draws array i ≠ .goPanic := by
  induction draws with
  | nil =>
    intro array i
    unfold permLoop
    split_ifs <;> first | omega | simp
  | cons r draws ih =>
    intro array i
    unfold permLoop
    split_ifs
    · omega
    · exact ih _ _
    · exact ih _ _
    · simp

theorem perm_ne_goPanic (size limit exclude : Int) (hsize : 1 ≤ size) (hlimit : 0 < limit)
    (draws : List Nat) : perm size limit exclude draws ≠ .goPanic := by
  unfold perm
  rw [if_neg (by omega)]
  cases hl : permLoop size limit exclude draws (List.replicate size.toNat 0) 0 with
  | goPanic => exact absurd hl (permLoop_ne_goPanic size limit exclude hlimit draws _ _)
  | starved => simp
  | done array rest => simp only []; rw [if_neg (by omega)]; simp

/-- Looking up in-range indices succeeds and yields elements of `tags`. -/
theorem lookupTags_inRange (tags : List String) (vs : List Int)
    (hvs : ∀ v ∈ vs, 0 ≤ v ∧ v < (tags.length : Int)) :
    ∃ strs, lookupTags tags vs = some strs ∧ ∀ s ∈ strs, s ∈ tags := by
  induction vs with
  | nil => exact ⟨[], rfl, by simp⟩
  | cons v vs ih =>
    obtain ⟨strs, hs, hmem⟩ := ih (fun w hw => hvs w (List.mem_cons_of_mem _ hw))
    obtain ⟨h0, h1⟩ := hvs v (by simp)
    have hlt : v.toNat < tags.length := by omega
    refine ⟨tags[v.toNat] :: strs, ?_, ?_⟩
    · simp [lookupTags, index, h0, hs, List.getElem?_eq_getElem hlt]
    · intro s hsm
      rcases List.mem_cons.mp hsm with rfl | hsm
      · exact List.getElem_mem _
      · exact hmem s hsm

/-- With loop values and draws all below `len(tags)`, the outer loop never panics. -/
theorem genLoop_ne_goPanic (tags : List String) (todo : List Nat) :
    ∀ (questions : List Question) (draws : List Nat),
      (∀ a ∈ todo, a < tags.length) → (∀ d ∈ draws, d < tags.length) →
      genLoop tags todo questions draws ≠ .goPanic := by
  induction todo with
  | nil => intro questions draws _ _; simp [genLoop]
  | cons answer todo ih =>
    intro questions draws htodo hdraws
    have ha : answer < tags.length := htodo answer (by simp)
    unfold genLoop
    cases hperm : perm 4 (tags.length : Int) (answer : Int) draws with
    | goPanic =>
      exact absurd hperm
        (perm_ne_goPanic 4 _ _ (by norm_num) (by exact_mod_cast Nat.zero_lt_of_lt ha) draws)
    | starved => simp
    | done variants rest =>
      simp only []
      obtain ⟨picks, hv, -, hp, hr⟩ :=
        perm_done 4 (tags.length : Int) (answer : Int) draws variants rest (by norm_num) hperm
      have hrange : ∀ v ∈ variants, 0 ≤ v ∧ v < (tags.length : Int) := by
        intro v hvm
        rw [hv] at hvm
        rcases List.mem_append.mp hvm with hvm | hvm
        · obtain ⟨p, hpm, rfl⟩ := List.mem_map.mp hvm
          have := hdraws p (hp p hpm).1
          exact ⟨by positivity, by exact_mod_cast this⟩
        · rw [List.mem_singleton] at hvm
          subst hvm
          exact ⟨by positivity, by exact_mod_cast ha⟩
      obtain ⟨strs, hs, -⟩ := lookupTags_inRange tags variants hrange
      rw [hs, index_natCast, List.getElem?_eq_getElem ha]
      simp only []
      exact ih _ _ (fun a ham => htodo a (List.mem_cons_of_mem _ ham))
        (fun d hd => hdraws d (hr d hd))

/-- With `limit = 1` and `exclude = 0` the loop rejects every draw below 1 and never leaves
while a slot is still to be filled. -/
theorem permLoop_starved (size : Int) (draws : List Nat) (hdraws : ∀ d ∈ draws, d < 1) :
    ∀ (array : List Int) (i : Int), i < size - 1 →
      permLoop size 1 0 draws array i = .starved := by
  induction draws with
  | nil =>
    intro array i hi
    unfold permLoop
    rw [if_pos hi, if_neg (by norm_num)]
  | cons r draws ih =>
    intro array i hi
    have hr : r = 0 := by
      have := hdraws r (by simp)
      omega
    subst hr
    unfold permLoop
    rw [if_pos hi, if_neg (by norm_num), if_neg (by simp)]
    exact ih (fun d hd => hdraws d (List.mem_cons_of_mem _ hd)) array i hi

theorem perm_starved (size : Int) (hsize : 2 ≤ size) (draws : List Nat)
    (hdraws : ∀ d ∈ draws, d < 1) : perm size 1 0 draws = .starved := by
  unfold perm
  rw [if_neg (by omega), permLoop_starved size draws hdraws _ 0 (by omega)]

/-- For `limit ≥ 2` three equal draws, all different from `exclude`, let `perm 4` return. -/
theorem perm_returns (limit exclude : Int) (hlimit : 2 ≤ limit) (h0 : 0 ≤ exclude)
    (_h1 : exclude < limit) :
    ∃ d : Nat, (d : Int) < limit ∧ (d : Int) ≠ exclude ∧
      perm 4 limit exclude [d, d, d] = .done [(d : Int), (d : Int), (d : Int), exclude] [] := by
  by_cases he : exclude = 0
  · subst he
    refine ⟨1, by norm_num; omega, by norm_num, ?_⟩
    have hl : ¬ limit ≤ 0 := by omega
    simp [perm, permLoop, hl]
  · refine ⟨0, by norm_num; omega, by simpa using Ne.symm he, ?_⟩
    have hl : ¬ limit ≤ 0 := by omega
    have he2 : ¬ (0 : Int) = exclude := fun h => he h.symm
    simp [perm, permLoop, hl, he2]

theorem built_variants_mem (tags : List String) (answer : Nat) (q : Question)
    (hb : Built tags answer q) :
    q.Answer ∈ tags ∧ q.Variants.length = 4 ∧ ∀ v ∈ q.Variants, v ∈ tags := by
  obtain ⟨p0, p1, p2, a, s0, s1, s2, ha, h0, h1, h2, -, -, -, rfl⟩ := hb
  have ma := List.getElem?_mem ha
  have m0 := List.getElem?_mem h0
  have m1 := List.getElem?_mem h1
  have m2 := List.getElem?_mem h2
  refine ⟨ma, rfl, ?_⟩
  intro v hv
  simp only [List.mem_cons, List.mem_singleton, List.not_mem_nil, or_false] at hv
  rcases hv with rfl | rfl | rfl | rfl <;> assumption

theorem nodup_index_ne (tags : List String) (hnodup : tags.Nodup) (p answer : Nat)
    (s a : String) (hs : tags[p]? = some s) (ha : tags[answer]? = some a)
    (hne : p ≠ answer) : s ≠ a := by
  intro hsa
  subst hsa
  have hp : p < tags.length := by
    by_contra hcon
    rw [List.getElem?_eq_none (by omega)] at hs
    exact Option.noConfusion hs
  exact hne (List.getElem?_inj hp hnodup (hs.trans ha.symm))

/-! ## The claims -/

/-- C1 (code defect).  `NextQuestion` has a value receiver, so its `CurrentQuestion++` and
wrap-around act on a copy that is dropped at return.  Hence `n` successive calls on one
game state return the same question `n` times: on the example state (queue of four
different questions, cursor 0) two calls, and two `/bothook` events, both yield
`Questions[0]` twice and never `Questions[1]`, although the dropped local copy did move its
cursor to 1. -/
theorem nextQuestion_cursor_not_advanced :
    (∀ (state : GameState) (n : Nat),
        nextQuestions state n = List.replicate n (NextQuestion state)) ∧
    nextQuestions exampleState 2
      = [index exampleState.Questions 0, index exampleState.Questions 0] ∧
    bothook exampleState 2
      = [index exampleState.Questions 0, index exampleState.Questions 0] ∧
    index exampleState.Questions 0 ≠ index exampleState.Questions 1 ∧
    (NextQuestion.body exampleState).map (fun r => r.2.CurrentQuestion) = some 1 := by
  refine ⟨?_, by decide, by decide, by decide, by decide⟩
  intro state n
  induction n with
  | zero => rfl
  | succ n ih => simp [nextQuestions, ih, List.replicate_succ]

/-- C2 (code defect).  `perm` rejects a draw only when it equals `exclude`, never when it
repeats an earlier pick.  On the vocabulary `["cat","dog","bird","fish"]` with the draws
`exampleDraws` (all in `[0, 4)`) generation completes, and the first question has
`Variants = ["dog","dog","dog","cat"]`: it has duplicates and is not a permutation of the
four tags. -/
theorem variants_can_repeat :
    exampleTags.Nodup ∧ (∀ d ∈ exampleDraws, d < exampleTags.length) ∧
    generateQuestionsQueue exampleTags [0, 1, 2, 3] exampleDraws = .done exampleQueue [] ∧
    (index exampleQueue 0).map Question.Variants = some ["dog", "dog", "dog", "cat"] ∧
    ¬ (["dog", "dog", "dog", "cat"] : List String).Nodup ∧
    ¬ List.Perm (["dog", "dog", "dog", "cat"] : List String) exampleTags := by
  refine ⟨by decide, by decide, by decide, by decide, by decide, ?_⟩
  intro hperm
  have : "bird" ∈ (["dog", "dog", "dog", "cat"] : List String) :=
    hperm.symm.subset (by decide)
  exact absurd this (by decide)

/-- C3.  Coverage: whenever generation completes (with `answers` of the length of `tags`,
as `random.Perm(len(tags))` returns it), the queue has exactly `len(tags)` questions and the
list of their `Answer` fields is a permutation of `tags`.  This holds for every vocabulary
size, in particular for `N ≥ 4`. -/
theorem coverage (tags : List String) (answers draws : List Nat) (qs : List Question)
    (rest : List Nat) (hlen : answers.length = tags.length)
    (h : generateQuestionsQueue tags answers draws = .done qs rest) :
    qs.length = tags.length ∧ List.Perm (qs.map Question.Answer) tags := by
  have hans := generate_answers tags answers draws qs rest hlen h
  refine ⟨?_, by rw [hans]⟩
  have := congrArg List.length hans
  simpa using this

theorem coverage_witness :
    [3, 2, 1, 0].length = exampleTags.length ∧ 4 ≤ exampleTags.length ∧
    exampleQueue.length = exampleTags.length ∧
    List.Perm (exampleQueue.map Question.Answer) exampleTags :=
  ⟨by decide, by decide,
    coverage exampleTags [3, 2, 1, 0] exampleDraws exampleQueue [] (by decide) (by decide)⟩

/-- C4 (counterexample).  On the three-tag vocabulary `["cat","dog","bird"]`, with in-range
draws, `generateQuestionsQueue` does not fail: it returns a queue of three questions.  On
the empty vocabulary it returns the empty queue. -/
theorem insufficient_vocabulary_not_rejected :
    smallTags.length < 4 ∧ (∀ d ∈ smallDraws, d < smallTags.length) ∧
    generateQuestionsQueue smallTags [2, 0, 1] smallDraws = .done smallQueue [] ∧
    generateQuestionsQueue [] [] [] = .done [] [] := by
  refine ⟨by decide, by decide, by decide, by decide⟩

/-- C4 (amended).  `generateQuestionsQueue` has no size check and no error result.  For a
vocabulary of fewer than 4 tags: on the empty vocabulary it returns the empty queue without
consuming a draw; whenever it returns, the queue is complete (`len(tags)` questions, each
with exactly 4 variants, all taken from `tags`); on draws below `len(tags)` it never panics;
and for 2 or 3 tags there are in-range draws on which it does return a queue. -/
theorem small_vocabulary_behaviour (tags : List String) (answers draws : List Nat)
    (hsmall : tags.length < 4) (hlen : answers.length = tags.length) :
    (tags.length = 0 → generateQuestionsQueue tags answers draws = .done [] draws) ∧
    (∀ qs rest, generateQuestionsQueue tags answers draws = .done qs rest →
      qs.length = tags.length ∧
      ∀ q ∈ qs, q.Variants.length = 4 ∧ ∀ v ∈ q.Variants, v ∈ tags) ∧
    ((∀ d ∈ draws, d < tags.length) →
      generateQuestionsQueue tags answers draws ≠ .goPanic) ∧
    (2 ≤ tags.length → ∃ draws0 qs0, (∀ d ∈ draws0, d < tags.length) ∧
      generateQuestionsQueue tags answers draws0 = .done qs0 []) := by
  refine ⟨?_, ?_, ?_, ?_⟩
  · intro h0
    unfold generateQuestionsQueue
    rw [hlen, h0]
    rfl
  · intro qs rest h
    have hans := generate_answers tags answers draws qs rest hlen h
    refine ⟨by simpa using congrArg List.length hans, ?_⟩
    intro q hq
    obtain ⟨answer, hb⟩ := generate_mem tags answers draws qs rest h q hq
    exact (built_variants_mem tags answer q hb).2
  · intro hd
    unfold generateQuestionsQueue
    apply genLoop_ne_goPanic
    · intro a ha
      rw [List.mem_range] at ha
      omega
    · exact hd
  · intro h2
    match tags, hsmall, h2, hlen with
    | [a, b], _, _, hlen =>
      refine ⟨[1, 1, 1, 0, 0, 0],
        [{ Answer := a, Variants := [b, b, b, a] }, { Answer := b, Variants := [a, a, a, b] }],
        by simp, ?_⟩
      unfold generateQuestionsQueue
      rw [hlen]
      rfl
    | [a, b, c], _, _, hlen =>
      refine ⟨[1, 1, 1, 0, 0, 0, 0, 0, 0],
        [{ Answer := a, Variants := [b, b, b, a] }, { Answer := b, Variants := [a, a, a, b] },
         { Answer := c, Variants := [a, a, a, c] }],
        by simp, ?_⟩
      unfold generateQuestionsQueue
      rw [hlen]
      rfl

theorem small_vocabulary_behaviour_witness :
    smallTags.length < 4 ∧ [2, 0, 1].length = smallTags.length ∧
    (smallQueue.length = smallTags.length ∧
      ∀ q ∈ smallQueue, q.Variants.length = 4 ∧ ∀ v ∈ q.Variants, v ∈ smallTags) ∧
    generateQuestionsQueue smallTags [2, 0, 1] smallDraws ≠ .goPanic :=
  ⟨by decide, by decide,
    (small_vocabulary_behaviour smallTags [2, 0, 1] smallDraws (by decide) (by decide)).2.1
      smallQueue [] (by decide),
    (small_vocabulary_behaviour smallTags [2, 0, 1] smallDraws (by decide) (by decide)).2.2.1
      (by decide)⟩

/-- C5 (code defect).  The loop `for answer := range answers` binds the index, not the
element, so the permutation returned by `random.Perm` is ignored.  With
`answers = [3, 2, 1, 0]` on `["cat","dog","bird","fish"]` the first question has
`Answer = "cat" = tags[0]`, whereas `tags[answers[0]] = tags[3] = "fish"`; the answers come
in vocabulary order. -/
theorem answer_order_ignores_permutation :
    List.Perm [3, 2, 1, 0] (List.range exampleTags.length) ∧
    generateQuestionsQueue exampleTags [3, 2, 1, 0] exampleDraws = .done exampleQueue [] ∧
    (index exampleQueue 0).map Question.Answer = some "cat" ∧
    index exampleTags 3 = some "fish" ∧
    exampleQueue.map Question.Answer = exampleTags := by
  refine ⟨by decide, by decide, by decide, by decide, by decide⟩

/-- C6.  Answer among the options: for a vocabulary of pairwise distinct tags, every
question of a returned queue has its `Answer` exactly once among its `Variants`, and that
occurrence is `Variants[3]`. -/
theorem answer_is_last_variant (tags : List String) (answers draws : List Nat)
    (qs : List Question) (rest : List Nat) (hnodup : tags.Nodup)
    (h : generateQuestionsQueue tags answers draws = .done qs rest) :
    ∀ q ∈ qs, q.Variants.count q.Answer = 1 ∧ index q.Variants 3 = some q.Answer := by
  intro q hq
  obtain ⟨answer, p0, p1, p2, a, s0, s1, s2, ha, h0, h1, h2, n0, n1, n2, rfl⟩ :=
    generate_mem tags answers draws qs rest h q hq
  have e0 := nodup_index_ne tags hnodup p0 answer s0 a h0 ha n0
  have e1 := nodup_index_ne tags hnodup p1 answer s1 a h1 ha n1
  have e2 := nodup_index_ne tags hnodup p2 answer s2 a h2 ha n2
  refine ⟨?_, rfl⟩
  simp [List.count_cons, e0, e1, e2]

theorem answer_is_last_variant_witness :
    exampleTags.Nodup ∧
    ∀ q ∈ exampleQueue, q.Variants.count q.Answer = 1 ∧ index q.Variants 3 = some q.Answer :=
  ⟨by decide,
    answer_is_last_variant exampleTags [3, 2, 1, 0] exampleDraws exampleQueue [] (by decide)
      (by decide)⟩

/-- C7.  Exclusion correctness of the sampler: whenever `perm(size, limit, exclude)` returns
for `size ≥ 1`, the result has length `size`, its element at `size-1` is `exclude`, and each
of the elements at positions `0 .. size-2` differs from `exclude`. -/
theorem perm_exclusion (size limit exclude : Int) (draws : List Nat) (arr : List Int)
    (rest : List Nat) (hsize : 1 ≤ size)
    (h : perm size limit exclude draws = .done arr rest) :
    (arr.length : Int) = size ∧ index arr (size - 1) = some exclude ∧
    ∀ k : Int, 0 ≤ k → k < size - 1 → ∃ x, index arr k = some x ∧ x ≠ exclude := by
  obtain ⟨picks, rfl, hpl, hp, -⟩ := perm_done size limit exclude draws arr rest hsize h
  refine ⟨by simp; omega, ?_, ?_⟩
  · have hidx : (size - 1).toNat = (picks.map (fun p : Nat => (p : Int))).length := by
      rw [List.length_map]; omega
    unfold index
    rw [if_pos (by omega), hidx]
    simp
  · intro k hk0 hk1
    have hk : k.toNat < picks.length := by omega
    refine ⟨(picks[k.toNat] : Int), ?_, (hp _ (List.getElem_mem _)).2⟩
    unfold index
    rw [if_pos hk0, List.getElem?_append_left (by simpa using hk)]
    simp [List.getElem?_eq_getElem hk]

theorem perm_exclusion_witness :
    (1 : Int) ≤ 4 ∧
    ((([1, 1, 2, 0] : List Int).length : Int) = 4 ∧
      index ([1, 1, 2, 0] : List Int) (4 - 1) = some 0 ∧
      ∀ k : Int, 0 ≤ k → k < 4 - 1 →
        ∃ x, index ([1, 1, 2, 0] : List Int) k = some x ∧ x ≠ 0) :=
  ⟨by decide, perm_exclusion 4 4 0 [1, 0, 1, 2, 3] [1, 1, 2, 0] [3] (by decide) (by decide)⟩

/-- C8.  Variants come from the vocabulary: with every draw in `[0, len(tags))` and
`answer` in `[0, len(tags))`, every index returned by `perm(4, len(tags), answer)` lies in
`[0, len(tags))` and the lookup `tags[variant]` succeeds for each of them; queue generation
never panics; and every entry of every returned question's `Variants` is an element of
`tags`. -/
theorem variants_from_vocabulary (tags : List String) (answers draws : List Nat)
    (hdraws : ∀ d ∈ draws, d < tags.length) :
    (∀ (answer : Nat) (arr : List Int) (rest : List Nat), answer < tags.length →
      perm 4 (tags.length : Int) (answer : Int) draws = .done arr rest →
      (∀ x ∈ arr, 0 ≤ x ∧ x < (tags.length : Int)) ∧
      ∃ strs, lookupTags tags arr = some strs ∧ ∀ s ∈ strs, s ∈ tags) ∧
    (answers.length = tags.length →
      generateQuestionsQueue tags answers draws ≠ .goPanic) ∧
    (∀ qs rest, generateQuestionsQueue tags answers draws = .done qs rest →
      ∀ q ∈ qs, ∀ v ∈ q.Variants, v ∈ tags) := by
  refine ⟨?_, ?_, ?_⟩
  · intro answer arr rest ha h
    obtain ⟨picks, rfl, -, hp, -⟩ :=
      perm_done 4 (tags.length : Int) (answer : Int) draws arr rest (by norm_num) h
    have hrange : ∀ x ∈ picks.map (fun p : Nat => (p : Int)) ++ [(answer : Int)],
        0 ≤ x ∧ x < (tags.length : Int) := by
      intro x hx
      rcases List.mem_append.mp hx with hx | hx
      · obtain ⟨p, hpm, rfl⟩ := List.mem_map.mp hx
        have := hdraws p (hp p hpm).1
        exact ⟨by positivity, by exact_mod_cast this⟩
      · rw [List.mem_singleton] at hx
        subst hx
        exact ⟨by positivity, by exact_mod_cast ha⟩
    exact ⟨hrange, lookupTags_inRange tags _ hrange⟩
  · intro hlen
    unfold generateQuestionsQueue
    apply genLoop_ne_goPanic
    · intro a ha
      rw [List.mem_range] at ha
      omega
    · exact hdraws
  · intro qs rest h q hq
    obtain ⟨answer, hb⟩ := generate_mem tags answers draws qs rest h q hq
    exact (built_variants_mem tags answer q hb).2.2

theorem variants_from_vocabulary_witness :
    (∀ d ∈ exampleDraws, d < exampleTags.length) ∧
    ((∀ x ∈ ([1, 1, 1, 0] : List Int), 0 ≤ x ∧ x < (exampleTags.length : Int)) ∧
      ∃ strs, lookupTags exampleTags [1, 1, 1, 0] = some strs ∧ ∀ s ∈ strs, s ∈ exampleTags) ∧
    generateQuestionsQueue exampleTags [3, 2, 1, 0] exampleDraws ≠ .goPanic ∧
    (∀ q ∈ exampleQueue, ∀ v ∈ q.Variants, v ∈ exampleTags) :=
  ⟨by decide,
    (variants_from_vocabulary exampleTags [3, 2, 1, 0] exampleDraws (by decide)).1
      0 [1, 1, 1, 0] [0, 0, 0, 0, 0, 0, 0, 0, 0] (by decide) (by decide),
    (variants_from_vocabulary exampleTags [3, 2, 1, 0] exampleDraws (by decide)).2.1
      (by decide),
    (variants_from_vocabulary exampleTags [3, 2, 1, 0] exampleDraws (by decide)).2.2
      exampleQueue [] (by decide)⟩

/-- C9.  Keyboard payload of a generated question: every question of a returned queue has
exactly 4 variants, so the four index expressions of `keyboardJSON` are in range, and the
`ReplyKeyboardMarkup` it builds has the 2x2 grid
`[[Variants[0], Variants[1]], [Variants[2], Variants[3]]]`, `ResizeKeyboard = true`,
`OneTimeKeyboard = true` and `Selective = false`. -/
theorem keyboard_of_generated_question (tags : List String) (answers draws : List Nat)
    (qs : List Question) (rest : List Nat)
    (h : generateQuestionsQueue tags answers draws = .done qs rest) :
    ∀ q ∈ qs, q.Variants.length = 4 ∧
      ∃ v0 v1 v2 v3, index q.Variants 0 = some v0 ∧ index q.Variants 1 = some v1 ∧
        index q.Variants 2 = some v2 ∧ index q.Variants 3 = some v3 ∧
        keyboardJSON q.Variants =
          some { Keyboard := [[v0, v1], [v2, v3]]
                 ResizeKeyboard := true
                 OneTimeKeyboard := true
                 Selective := false } := by
  intro q hq
  obtain ⟨answer, p0, p1, p2, a, s0, s1, s2, -, -, -, -, -, -, -, rfl⟩ :=
    generate_mem tags answers draws qs rest h q hq
  exact ⟨rfl, s0, s1, s2, a, rfl, rfl, rfl, rfl, rfl⟩

theorem keyboard_of_generated_question_witness :
    generateQuestionsQueue exampleTags [3, 2, 1, 0] exampleDraws = .done exampleQueue [] ∧
    ∀ q ∈ exampleQueue, q.Variants.length = 4 ∧
      ∃ v0 v1 v2 v3, index q.Variants 0 = some v0 ∧ index q.Variants 1 = some v1 ∧
        index q.Variants 2 = some v2 ∧ index q.Variants 3 = some v3 ∧
        keyboardJSON q.Variants =
          some { Keyboard := [[v0, v1], [v2, v3]]
                 ResizeKeyboard := true
                 OneTimeKeyboard := true
                 Selective := false } :=
  ⟨by decide,
    keyboard_of_generated_question exampleTags [3, 2, 1, 0] exampleDraws exampleQueue []
      (by decide)⟩

/-- C10.  Single-tag vocabulary never completes: with `limit = 1` and `exclude = 0` every
draw (each lies in `[0, 1)`) is rejected, so for `size ≥ 2` no finite record of draws lets
`perm(size, 1, 0)` return, and `generateQuestionsQueue` on a one-tag vocabulary never
returns; whereas for every `limit ≥ 2` and `exclude` in `[0, limit)` some finite record of
in-range draws lets `perm(4, limit, exclude)` return. -/
theorem single_tag_never_completes :
    (∀ (size : Int) (draws : List Nat), 2 ≤ size → (∀ d ∈ draws, d < 1) →
      perm size 1 0 draws = .starved) ∧
    (∀ (tags : List String) (answers draws : List Nat), tags.length = 1 →
      answers.length = tags.length → (∀ d ∈ draws, d < tags.length) →
      generateQuestionsQueue tags answers draws = .starved) ∧
    (∀ (limit exclude : Int), 2 ≤ limit → 0 ≤ exclude → exclude < limit →
      ∃ (draws : List Nat) (arr : List Int), (∀ d ∈ draws, (d : Int) < limit) ∧
        perm 4 limit exclude draws = .done arr []) := by
  refine ⟨?_, ?_, ?_⟩
  · intro size draws hsize hdraws
    exact perm_starved size hsize draws hdraws
  · intro tags answers draws htags hlen hdraws
    obtain ⟨tag, rfl⟩ := List.length_eq_one.mp htags
    have hp : perm 4 (([tag] : List String).length : Int) ((0 : Nat) : Int) draws
        = .starved := by
      simpa using perm_starved 4 (by norm_num) draws (by simpa using hdraws)
    unfold generateQuestionsQueue
    rw [hlen]
    show genLoop [tag] [0] [] draws = .starved
    unfold genLoop
    rw [hp]
  · intro limit exclude hlimit h0 h1
    obtain ⟨d, hd, -, hperm⟩ := perm_returns limit exclude hlimit h0 h1
    refine ⟨[d, d, d], _, ?_, hperm⟩
    intro x hx
    simp only [List.mem_cons, List.mem_singleton, List.not_mem_nil, or_false, or_self] at hx
    subst hx
    exact hd

theorem single_tag_never_completes_witness :
    perm 4 1 0 [0, 0, 0, 0, 0] = .starved ∧
    generateQuestionsQueue ["cat"] [0] [0, 0, 0, 0, 0] = .starved ∧
    (∃ (draws : List Nat) (arr : List Int), (∀ d ∈ draws, (d : Int) < 2) ∧
      perm 4 2 1 draws = .done arr []) :=
  ⟨single_tag_never_completes.1 4 [0, 0, 0, 0, 0] (by decide) (by decide),
    single_tag_never_completes.2.1 ["cat"] [0] [0, 0, 0, 0, 0] (by decide) (by decide)
      (by decide),
    single_tag_never_completes.2.2 2 1 (by decide) (by decide) (by decide)⟩

end Questagbot
